import Mathlib

/-!
# The legacy `proto` package: Clone, Merge, Equal and RequiredNotSetError

A verification development for `src/proto/proto.go`.  The package is a thin
layer over the protobuf runtime: `Merge` dispatches between a per-type
`Merger` override and the generic merge, `Clone` allocates and merges,
`Equal` forwards, `checkRequiredNotSet` wraps the error of the initialization
check.

The functions of the package are embedded over a `Runtime`, a record of the
collaborators that the file imports (`protoimpl.X.*`, `proto.Merge`,
`proto.Equal`, `proto.IsInitialized`) and of the one language feature it uses
on its arguments (the type assertion `dst.(Merger)`).  Every Go call is a
state transformer that either completes or panics.

The second half gives one concrete runtime, `core`, in which the generic
operations are modelled from the specification's description of the
reflective message store.
-/

namespace Proto

/-! ## Go computations -/

/-- Outcome of running a Go call over a world state `σ`: normal completion
with a value and the new state, or a panic with its message and the state at
the moment of the panic (what a deferred `recover` would find). -/
inductive Outcome (σ α : Type) where
  | ok (r : α × σ)
  | panic (msg : String) (s : σ)
  deriving DecidableEq, Repr

/-- A Go call over a world state `σ` returning an `α`: it completes with a
value and a new state, or it panics and leaves a state. -/
def Go (σ α : Type) : Type := σ → Outcome σ α

/-- Returning a value leaves the state alone. -/
def Go.pure {σ α : Type} (a : α) : Go σ α := fun s => Outcome.ok (a, s)

/-- Sequencing: a panic of the first call ends the computation, in the state
that the panic left. -/
def Go.bind {σ α β : Type} (x : Go σ α) (f : α → Go σ β) : Go σ β := fun s =>
  match x s with
  | Outcome.ok (a, s1) => f a s1
  | Outcome.panic msg s1 => Outcome.panic msg s1

instance (σ : Type) : Monad (Go σ) where
  pure := Go.pure
  bind := Go.bind

/-- A value of Go's `error` interface, observed through its `Error` method. -/
structure GoError where
  Error : String
  deriving DecidableEq, Repr

/-! ## The collaborators of the package -/

/-- What `proto.go` takes from outside: the conversions of `protoimpl.X`, the
reflective view (`IsValid`, `New`, `Interface`), the runtime's generic
`proto.Merge`, `proto.Equal` and `proto.IsInitialized`, and the result of the
type assertion `m.(Merger)` on a message.

* `Msg` is the type `Message` (`protoiface.MessageV1`),
* `V2` is `proto.Message` of the runtime,
* `PR` is a non-nil `protoreflect.Message`. -/
structure Runtime (σ Msg V2 PR : Type) where
  /-- The assertion `m, ok := dst.(Merger)`: `some` of the bound method `m.Merge` when the
  dynamic type of `dst` has one, `none` when the assertion fails. -/
  asMerger : Msg → Option (Msg → Go σ Unit)
  /-- Conversion `protoimpl.X.ProtoMessageV2Of` -/
  ProtoMessageV2Of : Msg → V2
  /-- Conversion `protoimpl.X.ProtoMessageV1Of` -/
  ProtoMessageV1Of : V2 → Msg
  /-- Conversion `protoimpl.X.MessageOf`; `none` is the nil `protoreflect.Message` -/
  MessageOf : Msg → Option PR
  /-- Method `protoreflect.Message.IsValid` -/
  IsValid : PR → Bool
  /-- Method `protoreflect.Message.New` -/
  New : PR → Go σ PR
  /-- Method `protoreflect.Message.Interface` -/
  Interface : PR → V2
  /-- Function `proto.Merge` of the runtime -/
  protoMerge : V2 → V2 → Go σ Unit
  /-- Function `proto.Equal` of the runtime -/
  protoEqual : V2 → V2 → Go σ Bool
  /-- Function `proto.IsInitialized` of the runtime; `none` is the nil error -/
  protoIsInitialized : V2 → Go σ (Option GoError)

/-! ## `src/proto/proto.go` -/

/-- The type `RequiredNotSetError`, a struct with the one field `err error`;
`none` is the nil error. -/
structure RequiredNotSetError where
  err : Option GoError
  deriving DecidableEq, Repr

/-- Method `func (e *RequiredNotSetError) Error() string`. -/
def RequiredNotSetError.Error (e : RequiredNotSetError) : String :=
  match e.err with
  | some err => err.Error
  | none => "proto: required field not set"

/-- Method `func (e *RequiredNotSetError) RequiredNotSet() bool`. -/
def RequiredNotSetError.RequiredNotSet (_e : RequiredNotSetError) : Bool :=
  true

section Shim

variable {σ Msg V2 PR : Type}

/-- Function `func checkRequiredNotSet(m proto.Message) error`.  The returned `error`
is nil (`none`) or a `*RequiredNotSetError`. -/
def checkRequiredNotSet (rt : Runtime σ Msg V2 PR) (m : V2) :
    Go σ (Option RequiredNotSetError) := do
  match (← rt.protoIsInitialized m) with
  | some err => pure (some { err := some err })
  | none => pure none

/-- Function `func Merge(dst, src Message)`: the type assertion on `dst`
decides between the override and the runtime's merge of the two V2 views. -/
def Merge (rt : Runtime σ Msg V2 PR) (dst src : Msg) : Go σ Unit :=
  match rt.asMerger dst with
  | some m => m src
  | none => rt.protoMerge (rt.ProtoMessageV2Of dst) (rt.ProtoMessageV2Of src)

/-- Function `func Clone(src Message) Message`. -/
def Clone (rt : Runtime σ Msg V2 PR) (src : Msg) : Go σ Msg :=
  match rt.MessageOf src with
  | none => pure src
  | some srcMsg =>
    if !rt.IsValid srcMsg then pure src
    else do
      let m ← rt.New srcMsg
      let dst := rt.ProtoMessageV1Of (rt.Interface m)
      Merge rt dst src
      pure dst

/-- Function `func Equal(x, y Message) bool`. -/
def Equal (rt : Runtime σ Msg V2 PR) (x y : Msg) : Go σ Bool :=
  rt.protoEqual (rt.ProtoMessageV2Of x) (rt.ProtoMessageV2Of y)

end Shim

/-! ## The reflective message store

The generic operations live in the protobuf runtime, outside `proto.go`.  The
definitions of this part are modelled from the specification (its data model
and its structural operations), over values that are plain trees. -/

/-- Modelled from the spec: the scalar field values (the runtime's value type
is not in `proto.go`).  The integer kinds carry their number, a floating point
value that is not NaN carries a code of its value, and NaN is one value of its
own, so that NaN equals NaN. -/
inductive Scalar where
  | int (n : Int)
  | float (code : Nat)
  | nan
  | bool (b : Bool)
  | string (s : String)
  | bytes (b : List Nat)
  deriving DecidableEq, Repr

/-- Modelled from the spec: the keys of a map field, string, integer or bool
(the runtime's map key type is not in `proto.go`). -/
inductive MapKey where
  | str (s : String)
  | int (n : Int)
  | bool (b : Bool)
  deriving DecidableEq, Repr

/-- Modelled from the spec: the tagged variant of field values (the runtime's
value type is not in `proto.go`): scalar, enum, embedded message, repeated
list, map.  An embedded message holds its populated fields by field number and
its unknown fields, an ordered sequence of field number and raw bytes. -/
inductive Value where
  | scalar (s : Scalar)
  | enum (n : Int)
  | message (fields : List (Nat × Value)) (unknown : List (Nat × List Nat))
  | list (xs : List Value)
  | map (entries : List (MapKey × Value))

/-- Modelled from the spec: a message instance (the runtime's message store is
not in `proto.go`): the mapping from field number to value, populated fields
only, and the unknown fields. -/
structure MsgData where
  fields : List (Nat × Value)
  unknown : List (Nat × List Nat)

/-- The empty message. -/
def MsgData.empty : MsgData := { fields := [], unknown := [] }

/-- A message instance as a message value. -/
def MsgData.toValue (m : MsgData) : Value := Value.message m.fields m.unknown

/-- The entry of key `k` in an association list, if any. -/
def assocLookup {κ β : Type} [DecidableEq κ] (k : κ) : List (κ × β) → Option β
  | [] => none
  | (k1, v) :: rest => if k = k1 then some v else assocLookup k rest

/-- Set the entry of key `k`: overwrite it where it is, or add it at the end. -/
def assocSet {κ β : Type} [DecidableEq κ] (k : κ) (v : β) : List (κ × β) → List (κ × β)
  | [] => [(k, v)]
  | (k1, w) :: rest => if k = k1 then (k, v) :: rest else (k1, w) :: assocSet k v rest

/-- The keys of an association list, in order. -/
def assocKeys {κ β : Type} (xs : List (κ × β)) : List κ := xs.map Prod.fst

/-- A field is populated when the mapping has an entry for its number. -/
def MsgData.populated (m : MsgData) (n : Nat) : Bool := (assocLookup n m.fields).isSome

/-- Modelled from the spec: merging the entries of a map field (the runtime's
merge is not in `proto.go`): for each key in src, set or overwrite dst's
entry. -/
def mergeEntries (dst src : List (MapKey × Value)) : List (MapKey × Value) :=
  src.foldl (fun acc e => assocSet e.1 e.2 acc) dst

mutual
/-- Modelled from the spec: merging one populated field value of src into the
value `old` that dst has for the field, if any (the runtime's merge is not in
`proto.go`).  Scalar and enum: overwrite; embedded message: the copy of src's
when dst has none, else the recursive merge; repeated: src's elements appended
to dst's; map: src's entries set in dst's. -/
def mergeValue : (v : Value) → (old : Option Value) → Value
  | Value.message sf su, some (Value.message df du) =>
      Value.message (mergeFields sf df) (du ++ su)
  | Value.message sf su, _ => Value.message sf su
  | Value.list ys, some (Value.list xs) => Value.list (xs ++ ys)
  | Value.list ys, _ => Value.list ys
  | Value.map se, some (Value.map de) => Value.map (mergeEntries de se)
  | Value.map se, _ => Value.map se
  | Value.scalar s, _ => Value.scalar s
  | Value.enum n, _ => Value.enum n
termination_by structural v => v
/-- Modelled from the spec: merging the populated fields of src, one after the
other, into the fields of dst (the runtime's merge is not in `proto.go`). -/
def mergeFields : (src : List (Nat × Value)) → (dst : List (Nat × Value)) → List (Nat × Value)
  | [], dst => dst
  | (k, v) :: rest, dst => mergeFields rest (assocSet k (mergeValue v (assocLookup k dst)) dst)
termination_by structural src => src
end

/-- Modelled from the spec: the merge of message `src` into message `dst` (the
runtime's merge is not in `proto.go`): every populated field of src is merged
into dst, and src's unknown fields are appended after dst's. -/
def mergeMsg (dst src : MsgData) : MsgData :=
  { fields := mergeFields src.fields dst.fields, unknown := dst.unknown ++ src.unknown }

mutual
/-- Modelled from the spec: structural equality of field values (the runtime's
equality is not in `proto.go`): equal scalars and enums, recursively equal
embedded messages (the same populated fields with equal values, and equal
unknown fields), lists of equal length with equal elements, maps with the same
keys and equal values. -/
def valueEq : (a : Value) → Value → Bool
  | Value.scalar x, Value.scalar y => decide (x = y)
  | Value.enum x, Value.enum y => decide (x = y)
  | Value.message fa ua, Value.message fb ub =>
      fieldsLe fa fb && (assocKeys fb).all (fun k => (assocLookup k fa).isSome)
        && decide (ua = ub)
  | Value.list xs, Value.list ys => listEq xs ys
  | Value.map ea, Value.map eb =>
      entriesLe ea eb && (assocKeys eb).all (fun k => (assocLookup k ea).isSome)
  | _, _ => false
termination_by structural a => a
/-- Modelled from the spec: the comparison of the populated fields (the
runtime's equality is not in `proto.go`): every field of the first mapping is
in the second with an equal value. -/
def fieldsLe : (a : List (Nat × Value)) → List (Nat × Value) → Bool
  | [], _ => true
  | (k, v) :: rest, gs =>
      (match assocLookup k gs with
        | some w => valueEq v w
        | none => false) && fieldsLe rest gs
termination_by structural a => a
/-- Modelled from the spec: the comparison of lists (the runtime's equality is
not in `proto.go`): the same length and equal elements. -/
def listEq : (a : List Value) → List Value → Bool
  | [], [] => true
  | x :: xs, y :: ys => valueEq x y && listEq xs ys
  | [], _ :: _ => false
  | _ :: _, [] => false
termination_by structural a => a
/-- Modelled from the spec: the comparison of maps (the runtime's equality is
not in `proto.go`): every entry of the first map is in the second with an
equal value. -/
def entriesLe : (a : List (MapKey × Value)) → List (MapKey × Value) → Bool
  | [], _ => true
  | (k, v) :: rest, gs =>
      (match assocLookup k gs with
        | some w => valueEq v w
        | none => false) && entriesLe rest gs
termination_by structural a => a
end

/-- Modelled from the spec: structural equality of two message instances of
one descriptor (the runtime's equality is not in `proto.go`). -/
def msgEq (a b : MsgData) : Bool := valueEq a.toValue b.toValue

mutual
/-- The representation invariant of a value: a message has one entry for a
field number and a map has one entry for a key, at every depth. -/
def wfValue : (v : Value) → Bool
  | Value.message fs _ => decide (assocKeys fs).Nodup && wfFields fs
  | Value.list xs => wfList xs
  | Value.map es => decide (assocKeys es).Nodup && wfEntries es
  | Value.scalar _ => true
  | Value.enum _ => true
termination_by structural v => v
/-- Every field value is well formed. -/
def wfFields : (fs : List (Nat × Value)) → Bool
  | [] => true
  | (_, v) :: rest => wfValue v && wfFields rest
termination_by structural fs => fs
/-- Every element is well formed. -/
def wfList : (xs : List Value) → Bool
  | [] => true
  | x :: rest => wfValue x && wfList rest
termination_by structural xs => xs
/-- Every map value is well formed. -/
def wfEntries : (es : List (MapKey × Value)) → Bool
  | [] => true
  | (_, v) :: rest => wfValue v && wfEntries rest
termination_by structural es => es
end

/-- The representation invariant of a message instance. -/
def MsgData.wf (m : MsgData) : Bool := wfValue m.toValue

/-! ## Descriptors and the initialization check -/

/-- Modelled from the spec: one field of a descriptor (descriptors are not in
`proto.go`): its number, its name, whether it is required, and for a field
that holds messages the descriptor of that message type. -/
structure FieldDescriptor where
  number : Nat
  name : String
  required : Bool
  message : Option Nat

/-- Modelled from the spec: the schema of a message type (descriptors are not
in `proto.go`). -/
structure Descriptor where
  fields : List FieldDescriptor

/-- Modelled from the spec: the descriptors of a program, by descriptor
identity (descriptors are not in `proto.go`). -/
def Schema : Type := Nat → Descriptor

mutual
/-- Modelled from the spec: the initialization check on a value of a field
whose message type has descriptor `d` (the runtime's check is not in
`proto.go`).  On a message, the first required field of the descriptor that is
not populated is reported by its dotted path; else the populated fields are
checked in turn, inside embedded messages and repeated message fields. -/
def missingValue (schema : Schema) (d : Nat) (path : String) : (v : Value) → Option String
  | Value.message fs _ =>
      match (schema d).fields.find? (fun fd => fd.required && (assocLookup fd.number fs).isNone) with
      | some fd => some (path ++ fd.name)
      | none => missingFields schema d path fs
  | Value.list xs => missingList schema d path xs
  | Value.map _ => none
  | Value.scalar _ => none
  | Value.enum _ => none
termination_by structural v => v
/-- Modelled from the spec: the first missing required field inside the
populated fields of a message of descriptor `d` (the runtime's check is not in
`proto.go`). -/
def missingFields (schema : Schema) (d : Nat) (path : String) :
    (fs : List (Nat × Value)) → Option String
  | [] => none
  | (k, v) :: rest =>
      match (schema d).fields.find? (fun fd => decide (fd.number = k)) with
      | some fd =>
          match fd.message with
          | some d1 =>
              match missingValue schema d1 (path ++ fd.name ++ ".") v with
              | some q => some q
              | none => missingFields schema d path rest
          | none => missingFields schema d path rest
      | none => missingFields schema d path rest
termination_by structural fs => fs
/-- Modelled from the spec: the first missing required field inside the
elements of a repeated message field (the runtime's check is not in
`proto.go`). -/
def missingList (schema : Schema) (d : Nat) (path : String) : (xs : List Value) → Option String
  | [] => none
  | x :: rest =>
      match missingValue schema d path x with
      | some q => some q
      | none => missingList schema d path rest
termination_by structural xs => xs
end

/-! ## Messages in memory -/

/-- A pointer to a message struct: the dynamic Go type and the address;
`none` is the nil pointer. -/
structure Ptr where
  ty : Nat
  addr : Option Nat
  deriving DecidableEq, Repr

/-- A value of the interface type `Message`: `none` is the nil interface,
`some p` holds a pointer (which may itself be a nil pointer). -/
abbrev Message : Type := Option Ptr

/-- The memory: the message instance at each allocated address. -/
abbrev Heap : Type := List MsgData

/-- What a program's message types bring: the descriptor of each Go type, and
the `Merge` method of the types that implement `Merger` (a method with
receiver and argument, which is arbitrary code of the type's author). -/
structure GoTypes where
  descOf : Nat → Nat
  merger : Nat → Option (Ptr → Message → Go Heap Unit)

/-- The message instance that a pointer shows: the instance at its address; a
nil pointer reads as the empty message. -/
def Heap.read (h : Heap) (p : Ptr) : MsgData :=
  match p.addr with
  | some a => h.getD a MsgData.empty
  | none => MsgData.empty

/-- The representation invariant holds of the instance that a message value
shows (a nil interface shows none). -/
def Heap.wfAt (h : Heap) (m : Message) : Bool :=
  match m with
  | some p => (h.read p).wf
  | none => true

/-- Modelled from the spec: the generic `proto.Merge` (the runtime's merge is
not in `proto.go`).  Messages of different descriptor identity fail loudly,
before anything is written (it must not silently corrupt); else src is merged
into the instance of dst, in place.  A nil interface is no message and a nil
dst has no instance to merge into: both fail, with the memory as it was. -/
def genericMerge (ts : GoTypes) (dst src : Message) : Go Heap Unit := fun h =>
  match dst, src with
  | some d, some s =>
      if ts.descOf d.ty ≠ ts.descOf s.ty then Outcome.panic "descriptor mismatch" h
      else
        match d.addr with
        | some a => Outcome.ok ((), h.set a (mergeMsg (h.read d) (h.read s)))
        | none => Outcome.panic "invalid nil destination message" h
  | _, _ => Outcome.panic "invalid memory address or nil pointer dereference" h

/-- Modelled from the spec: the generic `proto.Equal` (the runtime's equality
is not in `proto.go`).  Descriptor identity must match first, then the
instances are compared structurally; it reports a boolean and never fails.
A nil interface equals only a nil interface. -/
def genericEqual (ts : GoTypes) (x y : Message) : Go Heap Bool := fun h =>
  match x, y with
  | some px, some py =>
      Outcome.ok (decide (ts.descOf px.ty = ts.descOf py.ty) && msgEq (h.read px) (h.read py), h)
  | none, none => Outcome.ok (true, h)
  | _, _ => Outcome.ok (false, h)

/-- Modelled from the spec: the generic `proto.IsInitialized` (the runtime's
check is not in `proto.go`).  On a message it gives a pass, or an error that
carries the dotted path of the first missing required field; the result is a
value, not a panic, and the message is only read.  The specification speaks
of messages only: a nil interface is none, the check has no guard for it, and
the method call on the nil interface panics as it does in Go. -/
def genericIsInitialized (schema : Schema) (ts : GoTypes) (m : Message) :
    Go Heap (Option GoError) := fun h =>
  match m with
  | some p =>
      Outcome.ok ((missingValue schema (ts.descOf p.ty) "" (h.read p).toValue).map GoError.mk, h)
  | none => Outcome.panic "invalid memory address or nil pointer dereference" h

/-- Modelled from the spec: the runtime that `proto.go` imports (it is not in
`proto.go`), with the generic operations of the specification.  Both message interfaces show the same pointer; the
reflective view of a nil interface is nil, and it is valid when the pointer
is not nil; `New` allocates an empty instance of the same Go type at the next
free address; the type assertion looks the `Merge` method up in the dynamic
type. -/
def core (schema : Schema) (ts : GoTypes) : Runtime Heap Message Message Ptr where
  asMerger := fun dst =>
    match dst with
    | some p => (ts.merger p.ty).map (fun m => m p)
    | none => none
  ProtoMessageV2Of := fun m => m
  ProtoMessageV1Of := fun m => m
  MessageOf := fun m => m
  IsValid := fun p => p.addr.isSome
  New := fun p h => Outcome.ok ({ ty := p.ty, addr := some h.length }, h ++ [MsgData.empty])
  Interface := fun p => some p
  protoMerge := genericMerge ts
  protoEqual := genericEqual ts
  protoIsInitialized := genericIsInitialized schema ts

/-! ## Sample programs

A schema with a required field `id` (number 1) and an optional field `name`
(number 2), and Go types over it: type 0 has no `Merge` method, type 1 has one
that does the generic merge, type 2 has one that merges the known fields only,
type 3 has one that assigns src to the receiver; the types from 4 on are
message types of another descriptor, without a `Merge` method. -/

/-- Descriptor 0 has the required `id` and the optional `name`; the other
descriptors have no fields. -/
def sampleSchema : Schema := fun d =>
  match d with
  | 0 => { fields := [{ number := 1, name := "id", required := true, message := none },
                      { number := 2, name := "name", required := false, message := none }] }
  | _ => { fields := [] }

/-- Types 0 to 3 are of descriptor 0, every other type of descriptor 1. -/
def sampleDescOf (t : Nat) : Nat := if t < 4 then 0 else 1

/-- A `Merge` method that merges as the generic merge does. -/
def faithfulMerge (p : Ptr) (src : Message) : Go Heap Unit :=
  genericMerge { descOf := sampleDescOf, merger := fun _ => none } (some p) src

/-- A `Merge` method written by hand that merges the known fields of src into
the receiver and leaves the unknown fields out; it looks at no descriptor. -/
def fieldsOnlyMerge (p : Ptr) (src : Message) : Go Heap Unit := fun h =>
  match p.addr, src with
  | some a, some s =>
      Outcome.ok ((), h.set a { fields := mergeFields (h.read s).fields (h.read p).fields,
                                unknown := (h.read p).unknown })
  | _, _ => Outcome.ok ((), h)

/-- A `Merge` method written by hand as the assignment of src's struct to the
receiver's. -/
def assignMerge (p : Ptr) (src : Message) : Go Heap Unit := fun h =>
  match p.addr, src with
  | some a, some s => Outcome.ok ((), h.set a (h.read s))
  | _, _ => Outcome.panic "invalid memory address or nil pointer dereference" h

/-- The sample Go types. -/
def sampleTypes : GoTypes where
  descOf := sampleDescOf
  merger := fun t =>
    match t with
    | 1 => some faithfulMerge
    | 2 => some fieldsOnlyMerge
    | 3 => some assignMerge
    | _ => none

/-- The message with `id` 5 and `name` "abc". -/
def sampleMsg : MsgData :=
  { fields := [(1, Value.scalar (Scalar.int 5)), (2, Value.scalar (Scalar.string "abc"))],
    unknown := [] }

/-- The message with only `name` "abc", and an unknown field 7. -/
def sampleNoId : MsgData :=
  { fields := [(2, Value.scalar (Scalar.string "abc"))], unknown := [(7, [1, 2])] }

/-- A message of the other descriptor, with a field 3. -/
def sampleOther : MsgData :=
  { fields := [(3, Value.enum 1)], unknown := [] }

/-! ## The package over any runtime -/

section ShimFacts

variable {σ Msg V2 PR : Type}

theorem Go.bind_eq {α β : Type} (x : Go σ α) (f : α → Go σ β) (s : σ) :
    (x >>= f) s =
      match x s with
      | Outcome.ok (a, s1) => f a s1
      | Outcome.panic msg s1 => Outcome.panic msg s1 := rfl

theorem Go.pure_eq {α : Type} (a : α) (s : σ) :
    (pure a : Go σ α) s = Outcome.ok (a, s) := rfl

/-- The body of `Clone` on a valid message: `New`, then `Merge`, then the
return of dst. -/
theorem Clone_valid_eq (rt : Runtime σ Msg V2 PR) (src : Msg) (pr : PR)
    (hpr : rt.MessageOf src = some pr) (hv : rt.IsValid pr = true) :
    Clone rt src =
      (rt.New pr >>= fun m =>
        Merge rt (rt.ProtoMessageV1Of (rt.Interface m)) src >>= fun _ =>
          pure (rt.ProtoMessageV1Of (rt.Interface m))) := by
  unfold Clone
  simp only [hpr, hv, Bool.not_true, Bool.false_eq_true, if_false]

/-- The body of `checkRequiredNotSet`, by the outcome of the check. -/
theorem checkRequiredNotSet_eq (rt : Runtime σ Msg V2 PR) (m : V2) (s : σ) :
    checkRequiredNotSet rt m s =
      match rt.protoIsInitialized m s with
      | Outcome.ok (some err, s1) => Outcome.ok (some { err := some err }, s1)
      | Outcome.ok (none, s1) => Outcome.ok (none, s1)
      | Outcome.panic msg s1 => Outcome.panic msg s1 := by
  unfold checkRequiredNotSet
  simp only [Go.bind_eq]
  cases hi : rt.protoIsInitialized m s with
  | panic msg s1 => rfl
  | ok r =>
    obtain ⟨e, s1⟩ := r
    cases e <;> rfl

end ShimFacts



section AssocFacts

variable {κ β : Type} [DecidableEq κ]

theorem assocLookup_eq_none (k : κ) (xs : List (κ × β)) (hk : k ∉ assocKeys xs) :
    assocLookup k xs = none := by
  induction xs with
  | nil => rfl
  | cons x rest ih =>
    obtain ⟨k1, v⟩ := x
    simp only [assocKeys, List.map_cons, List.mem_cons, not_or] at hk
    simp only [assocLookup, hk.1, if_false]
    exact ih hk.2

theorem assocLookup_isSome_iff (k : κ) (xs : List (κ × β)) :
    (assocLookup k xs).isSome = true ↔ k ∈ assocKeys xs := by
  induction xs with
  | nil => simp [assocLookup, assocKeys]
  | cons x rest ih =>
    obtain ⟨k1, v⟩ := x
    by_cases hkk : k = k1
    · simp [assocLookup, assocKeys, hkk]
    · simp only [assocLookup, hkk, if_false, assocKeys, List.map_cons, List.mem_cons, false_or]
      exact ih

theorem assocLookup_mem (k : κ) (v : β) (xs : List (κ × β)) (h : assocLookup k xs = some v) :
    (k, v) ∈ xs := by
  induction xs with
  | nil => simp [assocLookup] at h
  | cons x rest ih =>
    obtain ⟨k1, w⟩ := x
    by_cases hkk : k = k1
    · simp only [assocLookup, hkk, if_true, Option.some.injEq] at h
      simp [hkk, h]
    · simp only [assocLookup, hkk, if_false] at h
      exact List.mem_cons_of_mem _ (ih h)

theorem assocLookup_of_mem (p : κ × β) (xs : List (κ × β)) (hnd : (assocKeys xs).Nodup)
    (hp : p ∈ xs) : assocLookup p.1 xs = some p.2 := by
  induction xs with
  | nil => simp at hp
  | cons x rest ih =>
    obtain ⟨k1, w⟩ := x
    simp only [assocKeys, List.map_cons, List.nodup_cons] at hnd
    rcases List.mem_cons.1 hp with heq | hin
    · subst heq
      simp [assocLookup]
    · have hne : p.1 ≠ k1 := by
        intro hk
        apply hnd.1
        rw [← hk]
        exact List.mem_map_of_mem Prod.fst hin
      simp only [assocLookup, hne, if_false]
      exact ih hnd.2 hin

theorem assocSet_fresh (k : κ) (v : β) (xs : List (κ × β)) (hk : k ∉ assocKeys xs) :
    assocSet k v xs = xs ++ [(k, v)] := by
  induction xs with
  | nil => rfl
  | cons x rest ih =>
    obtain ⟨k1, w⟩ := x
    simp only [assocKeys, List.map_cons, List.mem_cons, not_or] at hk
    simp only [assocSet, hk.1, if_false, List.cons_append]
    rw [ih hk.2]

theorem assocKeys_assocSet (k : κ) (v : β) (xs : List (κ × β)) (j : κ)
    (hj : j ∈ assocKeys xs) : j ∈ assocKeys (assocSet k v xs) := by
  induction xs with
  | nil => simp [assocKeys] at hj
  | cons x rest ih =>
    obtain ⟨k1, w⟩ := x
    by_cases hkk : k = k1
    · simp only [assocSet, hkk, if_true]
      simpa [assocKeys] using hj
    · simp only [assocSet, hkk, if_false, assocKeys, List.map_cons, List.mem_cons]
      simp only [assocKeys, List.map_cons, List.mem_cons] at hj
      rcases hj with h1 | h2
      · exact Or.inl h1
      · exact Or.inr (ih h2)

end AssocFacts

theorem mergeValue_none (v : Value) : mergeValue v none = v := by
  cases v <;> simp [mergeValue]

theorem mergeFields_fresh (src : List (Nat × Value)) :
    ∀ dst : List (Nat × Value), (assocKeys src).Nodup →
      (∀ k ∈ assocKeys src, k ∉ assocKeys dst) → mergeFields src dst = dst ++ src := by
  induction src with
  | nil => intro dst _ _; simp [mergeFields]
  | cons x rest ih =>
    intro dst hnd hdis
    obtain ⟨k, v⟩ := x
    simp only [assocKeys, List.map_cons, List.nodup_cons] at hnd
    have hk : k ∉ assocKeys dst := hdis k (by simp [assocKeys])
    simp only [mergeFields]
    rw [assocLookup_eq_none k dst hk, mergeValue_none, assocSet_fresh k v dst hk]
    rw [ih (dst ++ [(k, v)]) hnd.2]
    · simp
    · intro j hj hmem
      simp only [assocKeys, List.map_append, List.map_cons, List.map_nil, List.mem_append,
        List.mem_singleton] at hmem
      rcases hmem with h1 | h2
      · exact hdis j (by simp only [assocKeys, List.map_cons, List.mem_cons]; exact Or.inr hj) h1
      · subst h2
        exact hnd.1 hj

theorem mergeFields_keeps (src : List (Nat × Value)) :
    ∀ (dst : List (Nat × Value)) (n : Nat), n ∈ assocKeys dst →
      n ∈ assocKeys (mergeFields src dst) := by
  induction src with
  | nil => intro dst n hn; simpa [mergeFields] using hn
  | cons x rest ih =>
    intro dst n hn
    obtain ⟨k, v⟩ := x
    simp only [mergeFields]
    exact ih _ n (assocKeys_assocSet k _ dst n hn)



/-! ## Structural equality is reflexive and symmetric -/

theorem fieldsLe_iff (xs ys : List (Nat × Value)) :
    fieldsLe xs ys = true ↔
      ∀ p ∈ xs, ∃ w, assocLookup p.1 ys = some w ∧ valueEq p.2 w = true := by
  induction xs with
  | nil => simp [fieldsLe]
  | cons x rest ih =>
    obtain ⟨k, v⟩ := x
    simp only [fieldsLe, Bool.and_eq_true, ih, List.mem_cons, forall_eq_or_imp]
    constructor
    · rintro ⟨h1, h2⟩
      refine ⟨?_, h2⟩
      cases hl : assocLookup k ys with
      | none => simp [hl] at h1
      | some w => exact ⟨w, rfl, by simpa [hl] using h1⟩
    · rintro ⟨⟨w, hw, he⟩, h2⟩
      exact ⟨by simp [hw, he], h2⟩

theorem entriesLe_iff (xs ys : List (MapKey × Value)) :
    entriesLe xs ys = true ↔
      ∀ p ∈ xs, ∃ w, assocLookup p.1 ys = some w ∧ valueEq p.2 w = true := by
  induction xs with
  | nil => simp [entriesLe]
  | cons x rest ih =>
    obtain ⟨k, v⟩ := x
    simp only [entriesLe, Bool.and_eq_true, ih, List.mem_cons, forall_eq_or_imp]
    constructor
    · rintro ⟨h1, h2⟩
      refine ⟨?_, h2⟩
      cases hl : assocLookup k ys with
      | none => simp [hl] at h1
      | some w => exact ⟨w, rfl, by simpa [hl] using h1⟩
    · rintro ⟨⟨w, hw, he⟩, h2⟩
      exact ⟨by simp [hw, he], h2⟩

theorem keysAll_iff {κ : Type} [DecidableEq κ] (xs ys : List (κ × Value)) :
    (assocKeys ys).all (fun k => (assocLookup k xs).isSome) = true ↔
      ∀ k ∈ assocKeys ys, k ∈ assocKeys xs := by
  simp only [List.all_eq_true, assocLookup_isSome_iff]

theorem wfFields_mem (fs : List (Nat × Value)) (h : wfFields fs = true) :
    ∀ p ∈ fs, wfValue p.2 = true := by
  induction fs with
  | nil => simp
  | cons x rest ih =>
    obtain ⟨k, v⟩ := x
    simp only [wfFields, Bool.and_eq_true] at h
    intro p hp
    rcases List.mem_cons.1 hp with heq | hin
    · subst heq; exact h.1
    · exact ih h.2 p hin

theorem wfEntries_mem (es : List (MapKey × Value)) (h : wfEntries es = true) :
    ∀ p ∈ es, wfValue p.2 = true := by
  induction es with
  | nil => simp
  | cons x rest ih =>
    obtain ⟨k, v⟩ := x
    simp only [wfEntries, Bool.and_eq_true] at h
    intro p hp
    rcases List.mem_cons.1 hp with heq | hin
    · subst heq; exact h.1
    · exact ih h.2 p hin

/-- An association list with one entry for a key is below itself as soon as
each of its values equals itself. -/
theorem assoc_le_refl {κ : Type} [DecidableEq κ] (xs : List (κ × Value))
    (hnd : (assocKeys xs).Nodup) (hrefl : ∀ p ∈ xs, valueEq p.2 p.2 = true) :
    ∀ p ∈ xs, ∃ w, assocLookup p.1 xs = some w ∧ valueEq p.2 w = true :=
  fun p hp => ⟨p.2, assocLookup_of_mem p xs hnd hp, hrefl p hp⟩

/-- For association lists with one entry for a key: when the first is below
the second and has all its keys, the second is below the first. -/
theorem assoc_le_symm {κ : Type} [DecidableEq κ] (xs ys : List (κ × Value))
    (hnd : (assocKeys ys).Nodup)
    (hle : ∀ p ∈ xs, ∃ w, assocLookup p.1 ys = some w ∧ valueEq p.2 w = true)
    (hk : ∀ k ∈ assocKeys ys, k ∈ assocKeys xs)
    (hsym : ∀ p ∈ xs, ∀ q ∈ ys, valueEq p.2 q.2 = true → valueEq q.2 p.2 = true) :
    ∀ q ∈ ys, ∃ v, assocLookup q.1 xs = some v ∧ valueEq q.2 v = true := by
  intro q hq
  have hq1 : q.1 ∈ assocKeys xs := hk q.1 (List.mem_map_of_mem Prod.fst hq)
  cases hl : assocLookup q.1 xs with
  | none =>
    have := (assocLookup_isSome_iff q.1 xs).2 hq1
    simp [hl] at this
  | some v =>
    refine ⟨v, rfl, ?_⟩
    have hmem : (q.1, v) ∈ xs := assocLookup_mem q.1 v xs hl
    obtain ⟨w, hw, he⟩ := hle (q.1, v) hmem
    have hq2 : assocLookup q.1 ys = some q.2 := assocLookup_of_mem q ys hnd hq
    simp only [hq2, Option.some.injEq] at hw
    subst hw
    exact hsym (q.1, v) hmem q hq he

theorem assoc_le_keys {κ : Type} [DecidableEq κ] (xs ys : List (κ × Value))
    (hle : ∀ p ∈ xs, ∃ w, assocLookup p.1 ys = some w ∧ valueEq p.2 w = true) :
    ∀ k ∈ assocKeys xs, k ∈ assocKeys ys := by
  intro k hk
  simp only [assocKeys, List.mem_map] at hk
  obtain ⟨p, hp, rfl⟩ := hk
  obtain ⟨w, hw, _⟩ := hle p hp
  exact (assocLookup_isSome_iff p.1 ys).1 (by simp [hw])

mutual
theorem valueEq_refl : (v : Value) → wfValue v = true → valueEq v v = true
  | Value.scalar s, _ => by simp [valueEq]
  | Value.enum n, _ => by simp [valueEq]
  | Value.message fs u, h => by
      simp only [wfValue, Bool.and_eq_true, decide_eq_true_eq] at h
      simp only [valueEq, Bool.and_eq_true, decide_eq_true_eq, fieldsLe_iff, keysAll_iff]
      exact ⟨⟨assoc_le_refl fs h.1 (fields_refl fs h.2), fun k hk => hk⟩, trivial⟩
  | Value.list xs, h => by
      simp only [wfValue] at h
      simp only [valueEq]
      exact list_refl xs h
  | Value.map es, h => by
      simp only [wfValue, Bool.and_eq_true, decide_eq_true_eq] at h
      simp only [valueEq, Bool.and_eq_true, entriesLe_iff, keysAll_iff]
      exact ⟨assoc_le_refl es h.1 (entries_refl es h.2), fun k hk => hk⟩
termination_by structural v => v
theorem fields_refl : (fs : List (Nat × Value)) → wfFields fs = true →
    ∀ p ∈ fs, valueEq p.2 p.2 = true
  | [], _ => by simp
  | (k, v) :: rest, h => by
      simp only [wfFields, Bool.and_eq_true] at h
      intro p hp
      rcases List.mem_cons.1 hp with heq | hin
      · subst heq; exact valueEq_refl v h.1
      · exact fields_refl rest h.2 p hin
termination_by structural fs => fs
theorem list_refl : (xs : List Value) → wfList xs = true → listEq xs xs = true
  | [], _ => by simp [listEq]
  | x :: rest, h => by
      simp only [wfList, Bool.and_eq_true] at h
      simp only [listEq, Bool.and_eq_true]
      exact ⟨valueEq_refl x h.1, list_refl rest h.2⟩
termination_by structural xs => xs
theorem entries_refl : (es : List (MapKey × Value)) → wfEntries es = true →
    ∀ p ∈ es, valueEq p.2 p.2 = true
  | [], _ => by simp
  | (k, v) :: rest, h => by
      simp only [wfEntries, Bool.and_eq_true] at h
      intro p hp
      rcases List.mem_cons.1 hp with heq | hin
      · subst heq; exact valueEq_refl v h.1
      · exact entries_refl rest h.2 p hin
termination_by structural es => es
end



mutual
theorem valueEq_symm : (a : Value) → ∀ b : Value, wfValue a = true → wfValue b = true →
    valueEq a b = true → valueEq b a = true
  | Value.scalar s, b, _, _, h => by
      cases b <;> simp_all [valueEq]
  | Value.enum n, b, _, _, h => by
      cases b <;> simp_all [valueEq]
  | Value.message fa ua, b, ha, hb, h => by
      cases b with
      | message fb ub =>
        simp only [wfValue, Bool.and_eq_true, decide_eq_true_eq] at ha hb
        simp only [valueEq, Bool.and_eq_true, decide_eq_true_eq, fieldsLe_iff, keysAll_iff] at h ⊢
        obtain ⟨⟨hle, hk⟩, hu⟩ := h
        refine ⟨⟨?_, assoc_le_keys fa fb hle⟩, hu.symm⟩
        exact assoc_le_symm fa fb hb.1 hle hk
          (fun p hp q hq he => fields_symm fa ha.2 p hp q.2 (wfFields_mem fb hb.2 q hq) he)
      | scalar _ => simp [valueEq] at h
      | enum _ => simp [valueEq] at h
      | list _ => simp [valueEq] at h
      | map _ => simp [valueEq] at h
  | Value.list xs, b, ha, hb, h => by
      cases b with
      | list ys =>
        simp only [wfValue] at ha hb
        simp only [valueEq] at h ⊢
        exact list_symm xs ys ha hb h
      | scalar _ => simp [valueEq] at h
      | enum _ => simp [valueEq] at h
      | message _ _ => simp [valueEq] at h
      | map _ => simp [valueEq] at h
  | Value.map ea, b, ha, hb, h => by
      cases b with
      | map eb =>
        simp only [wfValue, Bool.and_eq_true, decide_eq_true_eq] at ha hb
        simp only [valueEq, Bool.and_eq_true, entriesLe_iff, keysAll_iff] at h ⊢
        obtain ⟨hle, hk⟩ := h
        refine ⟨?_, assoc_le_keys ea eb hle⟩
        exact assoc_le_symm ea eb hb.1 hle hk
          (fun p hp q hq he => entries_symm ea ha.2 p hp q.2 (wfEntries_mem eb hb.2 q hq) he)
      | scalar _ => simp [valueEq] at h
      | enum _ => simp [valueEq] at h
      | message _ _ => simp [valueEq] at h
      | list _ => simp [valueEq] at h
termination_by structural a => a
theorem fields_symm : (fs : List (Nat × Value)) → wfFields fs = true →
    ∀ p ∈ fs, ∀ w : Value, wfValue w = true → valueEq p.2 w = true → valueEq w p.2 = true
  | [], _ => by simp
  | (k, v) :: rest, h => by
      simp only [wfFields, Bool.and_eq_true] at h
      intro p hp w hw he
      rcases List.mem_cons.1 hp with heq | hin
      · subst heq; exact valueEq_symm v w h.1 hw he
      · exact fields_symm rest h.2 p hin w hw he
termination_by structural fs => fs
theorem list_symm : (xs : List Value) → ∀ ys : List Value, wfList xs = true →
    wfList ys = true → listEq xs ys = true → listEq ys xs = true
  | [], ys, _, _, h => by
      cases ys with
      | nil => simp [listEq]
      | cons y rest => simp [listEq] at h
  | x :: rest, ys, ha, hb, h => by
      cases ys with
      | nil => simp [listEq] at h
      | cons y more =>
        simp only [wfList, Bool.and_eq_true] at ha hb
        simp only [listEq, Bool.and_eq_true] at h ⊢
        exact ⟨valueEq_symm x y ha.1 hb.1 h.1, list_symm rest more ha.2 hb.2 h.2⟩
termination_by structural xs => xs
theorem entries_symm : (es : List (MapKey × Value)) → wfEntries es = true →
    ∀ p ∈ es, ∀ w : Value, wfValue w = true → valueEq p.2 w = true → valueEq w p.2 = true
  | [], _ => by simp
  | (k, v) :: rest, h => by
      simp only [wfEntries, Bool.and_eq_true] at h
      intro p hp w hw he
      rcases List.mem_cons.1 hp with heq | hin
      · subst heq; exact valueEq_symm v w h.1 hw he
      · exact entries_symm rest h.2 p hin w hw he
termination_by structural es => es
end

theorem valueEq_comm (a b : Value) (ha : wfValue a = true) (hb : wfValue b = true) :
    valueEq a b = valueEq b a := by
  cases hab : valueEq a b with
  | true => exact (valueEq_symm a b ha hb hab).symm
  | false =>
    cases hba : valueEq b a with
    | false => rfl
    | true =>
      have := valueEq_symm b a hb ha hba
      rw [hab] at this
      exact this

theorem msgEq_refl (m : MsgData) (h : m.wf = true) : msgEq m m = true :=
  valueEq_refl m.toValue h

theorem msgEq_comm (a b : MsgData) (ha : a.wf = true) (hb : b.wf = true) :
    msgEq a b = msgEq b a :=
  valueEq_comm a.toValue b.toValue ha hb

theorem mergeMsg_empty (m : MsgData) (h : m.wf = true) : mergeMsg MsgData.empty m = m := by
  obtain ⟨fs, u⟩ := m
  simp only [MsgData.wf, MsgData.toValue, wfValue, Bool.and_eq_true, decide_eq_true_eq] at h
  simp only [mergeMsg, MsgData.empty, List.nil_append]
  rw [mergeFields_fresh fs [] h.1 (by intro k _; simp [assocKeys])]
  simp

/-! ## The merge keeps the representation invariant -/

theorem assocKeys_assocSet_eq {κ β : Type} [DecidableEq κ] (k : κ) (v : β) (xs : List (κ × β)) :
    assocKeys (assocSet k v xs) =
      if k ∈ assocKeys xs then assocKeys xs else assocKeys xs ++ [k] := by
  induction xs with
  | nil => simp [assocSet, assocKeys]
  | cons x rest ih =>
    obtain ⟨k1, w⟩ := x
    by_cases hkk : k = k1
    · simp [assocSet, assocKeys, hkk]
    · have hne : ¬ k1 = k := fun e => hkk e.symm
      simp only [assocSet, hkk, if_false, assocKeys, List.map_cons, List.mem_cons, false_or]
      simp only [assocKeys] at ih
      rw [ih]
      split <;> simp

theorem assocSet_nodup {κ β : Type} [DecidableEq κ] (k : κ) (v : β) (xs : List (κ × β))
    (h : (assocKeys xs).Nodup) : (assocKeys (assocSet k v xs)).Nodup := by
  rw [assocKeys_assocSet_eq]
  split
  · exact h
  · rename_i hk
    rw [List.nodup_append]
    refine ⟨h, List.nodup_singleton k, ?_⟩
    intro a ha hb
    simp only [List.mem_singleton] at hb
    subst hb
    exact hk ha

theorem assocSet_mem {κ β : Type} [DecidableEq κ] (k : κ) (v : β) (xs : List (κ × β))
    (p : κ × β) (hp : p ∈ assocSet k v xs) : p = (k, v) ∨ p ∈ xs := by
  induction xs with
  | nil =>
    simp only [assocSet, List.mem_singleton] at hp
    exact Or.inl hp
  | cons x rest ih =>
    obtain ⟨k1, w⟩ := x
    by_cases hkk : k = k1
    · simp only [assocSet, hkk, if_true, List.mem_cons] at hp
      rcases hp with h1 | h2
      · exact Or.inl (by rw [h1, hkk])
      · exact Or.inr (List.mem_cons_of_mem _ h2)
    · simp only [assocSet, hkk, if_false, List.mem_cons] at hp
      rcases hp with h1 | h2
      · exact Or.inr (by rw [h1]; exact List.mem_cons_self _ _)
      · rcases ih h2 with h3 | h4
        · exact Or.inl h3
        · exact Or.inr (List.mem_cons_of_mem _ h4)

theorem wfFields_of_mem (fs : List (Nat × Value)) (h : ∀ p ∈ fs, wfValue p.2 = true) :
    wfFields fs = true := by
  induction fs with
  | nil => rfl
  | cons x rest ih =>
    obtain ⟨k, v⟩ := x
    simp only [wfFields, Bool.and_eq_true]
    exact ⟨h (k, v) (List.mem_cons_self _ _), ih (fun p hp => h p (List.mem_cons_of_mem _ hp))⟩

theorem wfEntries_of_mem (es : List (MapKey × Value)) (h : ∀ p ∈ es, wfValue p.2 = true) :
    wfEntries es = true := by
  induction es with
  | nil => rfl
  | cons x rest ih =>
    obtain ⟨k, v⟩ := x
    simp only [wfEntries, Bool.and_eq_true]
    exact ⟨h (k, v) (List.mem_cons_self _ _), ih (fun p hp => h p (List.mem_cons_of_mem _ hp))⟩

theorem wfList_append (xs ys : List Value) (hx : wfList xs = true) (hy : wfList ys = true) :
    wfList (xs ++ ys) = true := by
  induction xs with
  | nil => simpa using hy
  | cons x rest ih =>
    simp only [wfList, Bool.and_eq_true] at hx
    simp only [List.cons_append, wfList, Bool.and_eq_true]
    exact ⟨hx.1, ih hx.2⟩

theorem mergeEntries_wf (src : List (MapKey × Value)) :
    ∀ dst : List (MapKey × Value), (assocKeys dst).Nodup → wfEntries dst = true →
      wfEntries src = true →
      (assocKeys (mergeEntries dst src)).Nodup ∧ wfEntries (mergeEntries dst src) = true := by
  induction src with
  | nil => intro dst hnd hwf _; exact ⟨hnd, hwf⟩
  | cons x rest ih =>
    intro dst hnd hwf hs
    obtain ⟨k, v⟩ := x
    simp only [wfEntries, Bool.and_eq_true] at hs
    simp only [mergeEntries, List.foldl_cons]
    refine ih (assocSet k v dst) (assocSet_nodup k v dst hnd) ?_ hs.2
    apply wfEntries_of_mem
    intro p hp
    rcases assocSet_mem k v dst p hp with h1 | h2
    · rw [h1]; exact hs.1
    · exact wfEntries_mem dst hwf p h2

mutual
theorem mergeValue_wf : (v : Value) → ∀ old : Option Value, wfValue v = true →
    (∀ o, old = some o → wfValue o = true) → wfValue (mergeValue v old) = true
  | Value.scalar s, old, _, _ => by simp [mergeValue, wfValue]
  | Value.enum n, old, _, _ => by simp [mergeValue, wfValue]
  | Value.message sf su, old, hv, ho => by
      rcases old with _ | o
      · simpa [mergeValue] using hv
      · cases o with
        | message df du =>
          have hd := ho _ rfl
          simp only [wfValue, Bool.and_eq_true, decide_eq_true_eq] at hv hd
          simp only [mergeValue, wfValue, Bool.and_eq_true, decide_eq_true_eq]
          exact mergeFields_wf sf df hv.2 hd.1 hd.2
        | scalar _ => simpa [mergeValue] using hv
        | enum _ => simpa [mergeValue] using hv
        | list _ => simpa [mergeValue] using hv
        | map _ => simpa [mergeValue] using hv
  | Value.list ys, old, hv, ho => by
      rcases old with _ | o
      · simpa [mergeValue] using hv
      · cases o with
        | list xs =>
          have hd := ho _ rfl
          simp only [wfValue] at hv hd
          simp only [mergeValue, wfValue]
          exact wfList_append xs ys hd hv
        | scalar _ => simpa [mergeValue] using hv
        | enum _ => simpa [mergeValue] using hv
        | message _ _ => simpa [mergeValue] using hv
        | map _ => simpa [mergeValue] using hv
  | Value.map se, old, hv, ho => by
      rcases old with _ | o
      · simpa [mergeValue] using hv
      · cases o with
        | map de =>
          have hd := ho _ rfl
          simp only [wfValue, Bool.and_eq_true, decide_eq_true_eq] at hv hd
          simp only [mergeValue, wfValue, Bool.and_eq_true, decide_eq_true_eq]
          exact mergeEntries_wf se de hd.1 hd.2 hv.2
        | scalar _ => simpa [mergeValue] using hv
        | enum _ => simpa [mergeValue] using hv
        | message _ _ => simpa [mergeValue] using hv
        | list _ => simpa [mergeValue] using hv
termination_by structural v => v
theorem mergeFields_wf : (src : List (Nat × Value)) → ∀ dst : List (Nat × Value),
    wfFields src = true → (assocKeys dst).Nodup → wfFields dst = true →
    (assocKeys (mergeFields src dst)).Nodup ∧ wfFields (mergeFields src dst) = true
  | [], dst, _, hnd, hwf => by
      simp only [mergeFields]
      exact ⟨hnd, hwf⟩
  | (k, v) :: rest, dst, hs, hnd, hwf => by
      simp only [wfFields, Bool.and_eq_true] at hs
      simp only [mergeFields]
      refine mergeFields_wf rest _ hs.2 (assocSet_nodup k _ dst hnd) ?_
      apply wfFields_of_mem
      intro p hp
      rcases assocSet_mem k _ dst p hp with h1 | h2
      · rw [h1]
        exact mergeValue_wf v (assocLookup k dst) hs.1
          (fun o hl => wfFields_mem dst hwf (k, o) (assocLookup_mem k o dst hl))
      · exact wfFields_mem dst hwf p h2
termination_by structural src => src
end

/-- The merge of two instances that satisfy the representation invariant
satisfies it: with the empty message of an allocation, every instance that
merges build has one entry for a field number and for a map key. -/
theorem mergeMsg_wf (dst src : MsgData) (hd : dst.wf = true) (hs : src.wf = true) :
    (mergeMsg dst src).wf = true := by
  simp only [MsgData.wf, MsgData.toValue, wfValue, Bool.and_eq_true, decide_eq_true_eq]
    at hd hs ⊢
  exact mergeFields_wf src.fields dst.fields hs.2 hd.1 hd.2

/-! ## Reading the memory -/

theorem read_alloc (h : Heap) (p : Ptr) : Heap.read (h ++ [MsgData.empty]) p = Heap.read h p := by
  unfold Heap.read
  cases p.addr with
  | none => rfl
  | some a =>
    simp only [List.getD_eq_getElem?_getD]
    rcases Nat.lt_or_ge a h.length with hlt | hge
    · rw [List.getElem?_append_left hlt]
    · rw [List.getElem?_append_right hge]
      rw [List.getElem?_eq_none hge]
      cases hd : a - h.length with
      | zero => simp
      | succ n => simp



theorem set_push (h : Heap) (d x : MsgData) : (h ++ [d]).set h.length x = h ++ [x] := by
  induction h with
  | nil => rfl
  | cons y rest ih => simp only [List.cons_append, List.length_cons, List.set_cons_succ, ih]

theorem read_push_new (h : Heap) (x : MsgData) (ty : Nat) :
    Heap.read (h ++ [x]) { ty := ty, addr := some h.length } = x := by
  simp [Heap.read, List.getD_eq_getElem?_getD]

theorem read_push_self (h : Heap) (p : Ptr) : Heap.read (h ++ [Heap.read h p]) p = Heap.read h p := by
  unfold Heap.read
  cases p.addr with
  | none => rfl
  | some a =>
    simp only [List.getD_eq_getElem?_getD]
    rcases Nat.lt_or_ge a h.length with hlt | hge
    · rw [List.getElem?_append_left hlt]
    · rw [List.getElem?_append_right hge]
      rw [List.getElem?_eq_none hge]
      cases hd : a - h.length with
      | zero => simp
      | succ n => simp

theorem read_set_self (h : Heap) (a : Nat) (ty : Nat) (x : MsgData) (hlt : a < h.length) :
    Heap.read (h.set a x) { ty := ty, addr := some a } = x := by
  simp [Heap.read, List.getD_eq_getElem?_getD, List.getElem?_set, hlt]

theorem read_unallocated (h : Heap) (a : Nat) (ty : Nat) (hge : h.length ≤ a) :
    Heap.read h { ty := ty, addr := some a } = MsgData.empty := by
  simp [Heap.read, List.getD_eq_getElem?_getD, List.getElem?_eq_none hge]

/-- The generic merge of a message into a message just allocated. -/
theorem genericMerge_fresh (ts : GoTypes) (p : Ptr) (h : Heap) :
    genericMerge ts (some { ty := p.ty, addr := some h.length }) (some p)
        (h ++ [MsgData.empty]) =
      Outcome.ok ((), h ++ [mergeMsg MsgData.empty (Heap.read h p)]) := by
  simp only [genericMerge, ne_eq, not_true_eq_false, if_false]
  rw [read_push_new, read_alloc, set_push]

/-- In the modelled runtime `Merge` is the generic merge as soon as the
override of dst, if it has one, acts on this call as the generic merge. -/
theorem Merge_core_eq (schema : Schema) (ts : GoTypes) (dst src : Message) (h : Heap)
    (hov : ∀ d, dst = some d → ∀ m, ts.merger d.ty = some m →
      m d src h = genericMerge ts dst src h) :
    Merge (core schema ts) dst src h = genericMerge ts dst src h := by
  cases dst with
  | none => rfl
  | some d =>
    cases hm : ts.merger d.ty with
    | none =>
      simp only [Merge, core, hm, Option.map_none']
    | some m =>
      simp only [Merge, core, hm, Option.map_some']
      exact hov d rfl m hm



/-! ## The claims -/

/-- C1: `Merge` prefers the override.  When the type assertion on dst yields a
`Merge` method, `Merge(dst, src)` is that one call and nothing else; when it
fails, `Merge(dst, src)` is the runtime's merge of the V2 view of src into the
V2 view of dst.  Only the assertion on dst is looked at: whatever the
assertion would answer on any other message, src included, changes nothing. -/
theorem Merge_prefers_override {σ Msg V2 PR : Type} (rt : Runtime σ Msg V2 PR)
    (dst src : Msg) :
    (∀ m, rt.asMerger dst = some m → Merge rt dst src = m src) ∧
    (rt.asMerger dst = none →
      Merge rt dst src = rt.protoMerge (rt.ProtoMessageV2Of dst) (rt.ProtoMessageV2Of src)) ∧
    (∀ f : Msg → Option (Msg → Go σ Unit), f dst = rt.asMerger dst →
      Merge { rt with asMerger := f } dst src = Merge rt dst src) := by
  refine ⟨?_, ?_, ?_⟩
  · intro m hm
    simp only [Merge, hm]
  · intro hm
    simp only [Merge, hm]
  · intro f hf
    simp only [Merge, hf]

/-- C2: on a valid message `Clone` is an allocation followed by one
`Merge(dst, src)` of the package (the one that prefers the override) and
returns dst with the state that this merge leaves: under any runtime, dst is
the V1 view of `srcMsg.New()`.  In the modelled runtime dst is a pointer of
src's own Go type at an address that was not allocated, it differs from src,
it shows the empty message before the merge, and the allocation leaves every
other instance as it was. -/
theorem Clone_allocates_then_merges :
    (∀ (σ Msg V2 PR : Type) (rt : Runtime σ Msg V2 PR) (src : Msg) (pr : PR),
      rt.MessageOf src = some pr → rt.IsValid pr = true →
      Clone rt src =
        (rt.New pr >>= fun m =>
          Merge rt (rt.ProtoMessageV1Of (rt.Interface m)) src >>= fun _ =>
            pure (rt.ProtoMessageV1Of (rt.Interface m)))) ∧
    (∀ (schema : Schema) (ts : GoTypes) (p : Ptr) (a : Nat) (h : Heap),
      p.addr = some a → a < h.length →
      Clone (core schema ts) (some p) h =
        (Merge (core schema ts) (some { ty := p.ty, addr := some h.length }) (some p) >>= fun _ =>
          (pure (some { ty := p.ty, addr := some h.length }) : Go Heap Message))
          (h ++ [MsgData.empty]) ∧
      (some { ty := p.ty, addr := some h.length } : Message) ≠ some p ∧
      Heap.read h { ty := p.ty, addr := some h.length } = MsgData.empty ∧
      Heap.read (h ++ [MsgData.empty]) { ty := p.ty, addr := some h.length } = MsgData.empty ∧
      (∀ q : Ptr, Heap.read (h ++ [MsgData.empty]) q = Heap.read h q) ∧
      (ts.merger p.ty = none →
        Clone (core schema ts) (some p) h =
          Outcome.ok (some { ty := p.ty, addr := some h.length },
            h ++ [mergeMsg MsgData.empty (Heap.read h p)]))) := by
  refine ⟨?_, ?_⟩
  · intro σ Msg V2 PR rt src pr hpr hv
    exact Clone_valid_eq rt src pr hpr hv
  · intro schema ts p a h hp ha
    have hclone : Clone (core schema ts) (some p) h =
        (Merge (core schema ts) (some { ty := p.ty, addr := some h.length }) (some p) >>= fun _ =>
          (pure (some { ty := p.ty, addr := some h.length }) : Go Heap Message))
          (h ++ [MsgData.empty]) := by
      rw [Clone_valid_eq (core schema ts) (some p) p rfl (by simp [core, hp])]
      rfl
    refine ⟨hclone, ?_, ?_, ?_, ?_, ?_⟩
    · intro heq
      have h2 : some h.length = p.addr := by
        have := congrArg (fun m : Message => m.bind Ptr.addr) heq
        simpa using this
      rw [hp] at h2
      simp only [Option.some.injEq] at h2
      omega
    · exact read_unallocated h h.length p.ty (Nat.le_refl _)
    · exact read_push_new h MsgData.empty p.ty
    · exact read_alloc h
    · intro hm
      have hM := Merge_core_eq schema ts (some { ty := p.ty, addr := some h.length }) (some p)
        (h ++ [MsgData.empty]) (by
          intro d hd m hdm
          simp only [Option.some.injEq] at hd
          subst hd
          rw [hm] at hdm
          simp at hdm)
      rw [hclone, Go.bind_eq, hM, genericMerge_fresh]
      rfl

/-- Witness of C2: cloning the sample message of type 1, whose `Merge` method
is used by `Clone`, out of a memory of one instance. -/
theorem Clone_allocates_then_merges_witness :
    Clone (core sampleSchema sampleTypes) (some { ty := 1, addr := some 0 }) [sampleMsg] =
      Outcome.ok (some { ty := 1, addr := some 1 }, [sampleMsg, sampleMsg]) ∧
    Merge (core sampleSchema sampleTypes) (some { ty := 1, addr := some 1 })
        (some { ty := 1, addr := some 0 }) [sampleMsg, MsgData.empty] =
      Outcome.ok ((), [sampleMsg, sampleMsg]) := by
  have h := (Clone_allocates_then_merges.2 sampleSchema sampleTypes
    { ty := 1, addr := some 0 } 0 [sampleMsg] rfl (by decide)).1
  refine ⟨?_, rfl⟩
  rw [h]
  rfl


/-- Counterexample to C3: type 2 has a `Merge` method that copies the known
fields only.  `Clone` uses it, the clone of a message with an unknown field
lacks that field, and `Equal(Clone(src), src)` is false. -/
theorem Clone_override_not_equal :
    Clone (core sampleSchema sampleTypes) (some { ty := 2, addr := some 0 }) [sampleNoId] =
      Outcome.ok (some { ty := 2, addr := some 1 },
        [sampleNoId, { fields := sampleNoId.fields, unknown := [] }]) ∧
    Equal (core sampleSchema sampleTypes) (some { ty := 2, addr := some 1 })
        (some { ty := 2, addr := some 0 })
        [sampleNoId, { fields := sampleNoId.fields, unknown := [] }] =
      Outcome.ok (false, [sampleNoId, { fields := sampleNoId.fields, unknown := [] }]) :=
  ⟨rfl, rfl⟩

/-- C3, amended: for every message src whose type has no `Merge` method, or
whose `Merge` method merges src into the freshly allocated message as the
generic merge does, `Clone(src)` completes and `Equal(Clone(src), src)` is
true.  A nil interface and a nil pointer, which `Clone` returns as they are,
are included.  (The instance of src satisfies the representation invariant.) -/
theorem Clone_equal_generic (schema : Schema) (ts : GoTypes) (src : Message) (h : Heap)
    (hwf : h.wfAt src = true)
    (hov : ∀ p, src = some p → ∀ m, ts.merger p.ty = some m →
      m { ty := p.ty, addr := some h.length } src (h ++ [MsgData.empty]) =
        genericMerge ts (some { ty := p.ty, addr := some h.length }) src
          (h ++ [MsgData.empty])) :
    ∃ dst h1, Clone (core schema ts) src h = Outcome.ok (dst, h1) ∧
      Equal (core schema ts) dst src h1 = Outcome.ok (true, h1) := by
  cases src with
  | none => exact ⟨none, h, rfl, rfl⟩
  | some p =>
    simp only [Heap.wfAt] at hwf
    cases hp : p.addr with
    | none =>
      refine ⟨some p, h, ?_, ?_⟩
      · simp [Clone, core, hp, Go.pure_eq]
        rfl
      · simp only [Equal, core, genericEqual, decide_True, Bool.true_and]
        rw [msgEq_refl _ hwf]
    | some a =>
      have hM := Merge_core_eq schema ts (some { ty := p.ty, addr := some h.length }) (some p)
        (h ++ [MsgData.empty]) (by
          intro d hd m hm
          simp only [Option.some.injEq] at hd
          subst hd
          exact hov p rfl m hm)
      have hG : genericMerge ts (some { ty := p.ty, addr := some h.length }) (some p)
          (h ++ [MsgData.empty]) = Outcome.ok ((), h ++ [h.read p]) := by
        rw [genericMerge_fresh, mergeMsg_empty _ hwf]
      refine ⟨some { ty := p.ty, addr := some h.length }, h ++ [h.read p], ?_, ?_⟩
      · rw [Clone_valid_eq (core schema ts) (some p) p rfl (by simp [core, hp])]
        show (Merge (core schema ts) (some { ty := p.ty, addr := some h.length }) (some p) >>=
          fun _ => (pure (some { ty := p.ty, addr := some h.length }) : Go Heap Message))
          (h ++ [MsgData.empty]) = _
        rw [Go.bind_eq, hM, hG]
        rfl
      · simp only [Equal, core, genericEqual, decide_True, Bool.true_and]
        rw [read_push_new, read_push_self, msgEq_refl _ hwf]

/-- Witness of C3: the clone of the sample message of type 1, whose `Merge`
method is the generic merge, equals the message. -/
theorem Clone_equal_generic_witness :
    ∃ dst h1, Clone (core sampleSchema sampleTypes) (some { ty := 1, addr := some 0 })
        [sampleNoId] = Outcome.ok (dst, h1) ∧
      Equal (core sampleSchema sampleTypes) dst (some { ty := 1, addr := some 0 }) h1 =
        Outcome.ok (true, h1) :=
  Clone_equal_generic sampleSchema sampleTypes (some { ty := 1, addr := some 0 }) [sampleNoId]
    (by decide)
    (by
      intro p hp m hm
      simp only [Option.some.injEq] at hp
      subst hp
      simp only [sampleTypes, Option.some.injEq] at hm
      subst hm
      rfl)


/-- Counterexample to C4: type 3 has a `Merge` method that assigns src to the
receiver.  dst has `id` and `name` populated, src of the same type has only
`name`; after `Merge(dst, src)` the field `id` of dst is no longer populated. -/
theorem Merge_override_clears_field :
    (Heap.read [sampleMsg, sampleNoId] { ty := 3, addr := some 0 }).populated 1 = true ∧
    Merge (core sampleSchema sampleTypes) (some { ty := 3, addr := some 0 })
        (some { ty := 3, addr := some 1 }) [sampleMsg, sampleNoId] =
      Outcome.ok ((), [sampleNoId, sampleNoId]) ∧
    (Heap.read [sampleNoId, sampleNoId] { ty := 3, addr := some 0 }).populated 1 = false :=
  ⟨rfl, rfl, rfl⟩

/-- C4, amended: for every dst whose type has no `Merge` method, or whose
`Merge` method acts on this call as the generic merge does, `Merge(dst, src)`
never removes a populated field: when it completes, every field populated in
dst before is populated in dst afterwards.  And it does complete when dst and
src are of the same message type and dst is not a nil pointer. -/
theorem Merge_generic_keeps_populated (schema : Schema) (ts : GoTypes) (dst src : Message)
    (h : Heap)
    (hov : ∀ d, dst = some d → ∀ m, ts.merger d.ty = some m →
      m d src h = genericMerge ts dst src h) :
    (∀ h1, Merge (core schema ts) dst src h = Outcome.ok ((), h1) →
      ∀ d, dst = some d → ∀ n, (h.read d).populated n = true →
        (Heap.read h1 d).populated n = true) ∧
    (∀ d s a, dst = some d → src = some s → ts.descOf d.ty = ts.descOf s.ty →
      d.addr = some a → ∃ h1, Merge (core schema ts) dst src h = Outcome.ok ((), h1)) := by
  rw [Merge_core_eq schema ts dst src h hov]
  refine ⟨?_, ?_⟩
  · intro h1 hm d hd n hn
    subst hd
    cases src with
    | none => simp [genericMerge] at hm
    | some s =>
      simp only [genericMerge] at hm
      split at hm
      · simp at hm
      · cases ha : d.addr with
        | none => simp [ha] at hm
        | some a =>
          simp only [ha, Outcome.ok.injEq, Prod.mk.injEq, true_and] at hm
          subst hm
          have hd : d = { ty := d.ty, addr := some a } := by
            cases d; simp_all
          rcases Nat.lt_or_ge a h.length with hlt | hge
          · rw [hd, read_set_self h a d.ty _ hlt, ← hd]
            simp only [MsgData.populated, assocLookup_isSome_iff, mergeMsg] at hn ⊢
            exact mergeFields_keeps _ _ n hn
          · rw [hd, read_unallocated h a d.ty hge] at hn
            simp [MsgData.populated, MsgData.empty, assocLookup] at hn
  · intro d s a hd hs hdesc ha
    subst hd hs
    exact ⟨h.set a (mergeMsg (h.read d) (h.read s)), by simp [genericMerge, hdesc, ha]⟩

/-- Witness of C4: the sample message of type 1, whose `Merge` method is the
generic merge, and a message with only `name`; the merge completes and keeps
`id` populated. -/
theorem Merge_generic_keeps_populated_witness :
    (∃ h1, Merge (core sampleSchema sampleTypes) (some { ty := 1, addr := some 0 })
        (some { ty := 1, addr := some 1 }) [sampleMsg, sampleNoId] = Outcome.ok ((), h1)) ∧
    (∀ h1, Merge (core sampleSchema sampleTypes) (some { ty := 1, addr := some 0 })
        (some { ty := 1, addr := some 1 }) [sampleMsg, sampleNoId] = Outcome.ok ((), h1) →
      (Heap.read h1 { ty := 1, addr := some 0 }).populated 1 = true) := by
  have hthm := Merge_generic_keeps_populated sampleSchema sampleTypes
    (some { ty := 1, addr := some 0 }) (some { ty := 1, addr := some 1 })
    [sampleMsg, sampleNoId]
    (by
      intro d hd m hm
      simp only [Option.some.injEq] at hd
      subst hd
      simp only [sampleTypes, Option.some.injEq] at hm
      subst hm
      rfl)
  exact ⟨hthm.2 _ _ 0 rfl rfl rfl rfl, fun h1 hm => hthm.1 h1 hm _ rfl 1 rfl⟩

/-- Counterexample to C5: type 2 has a `Merge` method that merges the known
fields without looking at a descriptor.  dst is of descriptor 0 and src of
descriptor 1; `Merge(dst, src)` completes normally and dst has been given
field 3 of src. -/
theorem Merge_override_mismatch_completes :
    sampleTypes.descOf 2 ≠ sampleTypes.descOf 4 ∧
    Merge (core sampleSchema sampleTypes) (some { ty := 2, addr := some 0 })
        (some { ty := 4, addr := some 1 }) [sampleNoId, sampleOther] =
      Outcome.ok ((), [{ fields := sampleNoId.fields ++ sampleOther.fields,
                         unknown := sampleNoId.unknown }, sampleOther]) :=
  ⟨by decide, rfl⟩

/-- C5, amended: for every dst whose type has no `Merge` method and every src
of another message type, `Merge(dst, src)` ends in a panic and nothing is
merged: the memory at the panic is the memory before the call.  When the type
of dst has a `Merge` method, the package checks nothing and the outcome is the
one of `dst.Merge(src)`. -/
theorem Merge_generic_mismatch_panics (schema : Schema) (ts : GoTypes) (d s : Ptr) (h : Heap)
    (hdesc : ts.descOf d.ty ≠ ts.descOf s.ty) :
    (ts.merger d.ty = none →
      ∃ msg, Merge (core schema ts) (some d) (some s) h = Outcome.panic msg h) ∧
    (∀ m, ts.merger d.ty = some m →
      Merge (core schema ts) (some d) (some s) h = m d (some s) h) := by
  refine ⟨?_, ?_⟩
  · intro hm
    refine ⟨"descriptor mismatch", ?_⟩
    simp only [Merge, core, hm, Option.map_none', genericMerge]
    simp [hdesc]
  · intro m hm
    simp only [Merge, core, hm, Option.map_some']

/-- Witness of C5: merging a message of descriptor 1 into the sample message
of type 0 panics, and the memory at the panic is the one before the call. -/
theorem Merge_generic_mismatch_panics_witness :
    ∃ msg, Merge (core sampleSchema sampleTypes) (some { ty := 0, addr := some 0 })
        (some { ty := 4, addr := some 1 }) [sampleNoId, sampleOther] =
      Outcome.panic msg [sampleNoId, sampleOther] :=
  (Merge_generic_mismatch_panics sampleSchema sampleTypes { ty := 0, addr := some 0 }
    { ty := 4, addr := some 1 } [sampleNoId, sampleOther] (by decide)).1 rfl

/-- C6: `Equal` forwards its two arguments, in order, to the runtime's
equality, under any runtime; the `Merge` methods of the types play no part in
it.  With the structural equality of the specification it is reflexive and
symmetric: `Equal(m, m)` is true and `Equal(a, b)` is `Equal(b, a)`, for nil
interfaces and nil pointers too.  (The instances shown satisfy the
representation invariant.) -/
theorem Equal_reflexive_symmetric (schema : Schema) (ts : GoTypes) (a b : Message) (h : Heap)
    (ha : h.wfAt a = true) (hb : h.wfAt b = true) :
    (∀ (σ Msg V2 PR : Type) (rt : Runtime σ Msg V2 PR) (x y : Msg),
      Equal rt x y = rt.protoEqual (rt.ProtoMessageV2Of x) (rt.ProtoMessageV2Of y)) ∧
    (∀ f : Nat → Option (Ptr → Message → Go Heap Unit),
      Equal (core schema { ts with merger := f }) a b h = Equal (core schema ts) a b h) ∧
    Equal (core schema ts) a a h = Outcome.ok (true, h) ∧
    Equal (core schema ts) a b h = Equal (core schema ts) b a h := by
  refine ⟨fun _ _ _ _ _ _ _ => rfl, fun _ => rfl, ?_, ?_⟩
  · cases a with
    | none => rfl
    | some p =>
      simp only [Heap.wfAt] at ha
      simp only [Equal, core, genericEqual, decide_True, Bool.true_and]
      rw [msgEq_refl _ ha]
  · cases a with
    | none => cases b <;> rfl
    | some p =>
      cases b with
      | none => rfl
      | some q =>
        simp only [Heap.wfAt] at ha hb
        simp only [Equal, core, genericEqual]
        rw [msgEq_comm _ _ ha hb]
        have hd : decide (ts.descOf p.ty = ts.descOf q.ty) =
            decide (ts.descOf q.ty = ts.descOf p.ty) := by
          by_cases hpq : ts.descOf p.ty = ts.descOf q.ty
          · simp [hpq]
          · have hqp : ¬ ts.descOf q.ty = ts.descOf p.ty := fun e => hpq e.symm
            simp [hpq, hqp]
        rw [hd]

/-- Witness of C6: two sample messages of type 0 that differ; each equals
itself and the comparison gives the same result in both orders. -/
theorem Equal_reflexive_symmetric_witness :
    Equal (core sampleSchema sampleTypes) (some { ty := 0, addr := some 0 })
        (some { ty := 0, addr := some 0 }) [sampleMsg, sampleNoId] =
      Outcome.ok (true, [sampleMsg, sampleNoId]) ∧
    Equal (core sampleSchema sampleTypes) (some { ty := 0, addr := some 0 })
        (some { ty := 0, addr := some 1 }) [sampleMsg, sampleNoId] =
      Equal (core sampleSchema sampleTypes) (some { ty := 0, addr := some 1 })
        (some { ty := 0, addr := some 0 }) [sampleMsg, sampleNoId] :=
  (Equal_reflexive_symmetric sampleSchema sampleTypes (some { ty := 0, addr := some 0 })
    (some { ty := 0, addr := some 1 }) [sampleMsg, sampleNoId] (by decide) (by decide)).2.2

/-- C7: messages of different types are never equal.  For every two messages
whose descriptors differ, `Equal(x, y)` completes with false and leaves the
memory as it is, whatever fields the two have populated and whether or not
the pointers are nil. -/
theorem Equal_different_types_false (schema : Schema) (ts : GoTypes) (px py : Ptr) (h : Heap)
    (hdesc : ts.descOf px.ty ≠ ts.descOf py.ty) :
    Equal (core schema ts) (some px) (some py) h = Outcome.ok (false, h) := by
  simp [Equal, core, genericEqual, hdesc]

/-- Witness of C7: a message of descriptor 0 and a message of descriptor 1
with the same populated fields are not equal. -/
theorem Equal_different_types_false_witness :
    Equal (core sampleSchema sampleTypes) (some { ty := 0, addr := some 0 })
        (some { ty := 4, addr := some 1 }) [sampleOther, sampleOther] =
      Outcome.ok (false, [sampleOther, sampleOther]) :=
  Equal_different_types_false sampleSchema sampleTypes { ty := 0, addr := some 0 }
    { ty := 4, addr := some 1 } [sampleOther, sampleOther] (by decide)

/-- Counterexample to C8: `checkRequiredNotSet` has no guard for the nil
interface.  It hands nil to `IsInitialized`, whose method call on the nil
interface panics, and so it panics. -/
theorem checkRequiredNotSet_nil_panics :
    ∃ msg, checkRequiredNotSet (core sampleSchema sampleTypes) none [sampleMsg] =
      Outcome.panic msg [sampleMsg] :=
  ⟨"invalid memory address or nil pointer dereference", rfl⟩

/-- C8, amended: `checkRequiredNotSet` reports what the initialization check
reports and adds nothing of its own.  Under any runtime it returns nil exactly
when `IsInitialized` returns nil; when `IsInitialized` returns an error it
returns a `RequiredNotSetError` whose `Error()` is the message of that error
and whose `RequiredNotSet()` is true, and it returns no other error; it panics
exactly when `IsInitialized` panics; and in each case it leaves the state that
`IsInitialized` leaves.  On every message that is not the nil interface, with
the initialization check of the specification, it does not panic and does not
change the memory. -/
theorem checkRequiredNotSet_reports {σ Msg V2 PR : Type} (rt : Runtime σ Msg V2 PR) (m : V2)
    (s : σ) (schema : Schema) (ts : GoTypes) (p : Ptr) (h : Heap) :
    (∀ s1, checkRequiredNotSet rt m s = Outcome.ok (none, s1) ↔
      rt.protoIsInitialized m s = Outcome.ok (none, s1)) ∧
    (∀ err s1, rt.protoIsInitialized m s = Outcome.ok (some err, s1) →
      ∃ e : RequiredNotSetError, checkRequiredNotSet rt m s = Outcome.ok (some e, s1) ∧
        e.Error = err.Error ∧ e.RequiredNotSet = true) ∧
    (∀ e s1, checkRequiredNotSet rt m s = Outcome.ok (some e, s1) →
      ∃ err, rt.protoIsInitialized m s = Outcome.ok (some err, s1) ∧
        e.Error = err.Error ∧ e.RequiredNotSet = true) ∧
    (∀ msg s1, checkRequiredNotSet rt m s = Outcome.panic msg s1 ↔
      rt.protoIsInitialized m s = Outcome.panic msg s1) ∧
    (∃ r, checkRequiredNotSet (core schema ts) (some p) h = Outcome.ok (r, h)) := by
  refine ⟨?_, ?_, ?_, ?_, ?_⟩
  · intro s1
    rw [checkRequiredNotSet_eq]
    rcases rt.protoIsInitialized m s with ⟨⟨e | e, s2⟩⟩ | ⟨msg, s2⟩ <;> simp
  · intro err s1 hi
    refine ⟨{ err := some err }, ?_, rfl, rfl⟩
    rw [checkRequiredNotSet_eq, hi]
  · intro e s1
    rw [checkRequiredNotSet_eq]
    rcases rt.protoIsInitialized m s with ⟨⟨err | err, s2⟩⟩ | ⟨msg, s2⟩
    · simp
    · simp only [Outcome.ok.injEq, Prod.mk.injEq, Option.some.injEq, and_imp]
      intro he hs
      subst he hs
      exact ⟨err, ⟨rfl, rfl⟩, rfl, rfl⟩
    · simp
  · intro msg s1
    rw [checkRequiredNotSet_eq]
    rcases rt.protoIsInitialized m s with ⟨⟨e | e, s2⟩⟩ | ⟨msg2, s2⟩ <;> simp
  · rw [checkRequiredNotSet_eq]
    simp only [core, genericIsInitialized]
    cases missingValue schema (ts.descOf p.ty) "" (Heap.read h p).toValue with
    | none => exact ⟨none, rfl⟩
    | some q => exact ⟨some { err := some { Error := q } }, rfl⟩

/-- Witness of C8: the sample message without `id`.  The check reports the
path `id`, and `checkRequiredNotSet` returns a `RequiredNotSetError` with
that message. -/
theorem checkRequiredNotSet_reports_witness :
    ∃ e : RequiredNotSetError,
      checkRequiredNotSet (core sampleSchema sampleTypes) (some { ty := 0, addr := some 0 })
        [sampleNoId] = Outcome.ok (some e, [sampleNoId]) ∧
      e.Error = "id" ∧ e.RequiredNotSet = true :=
  (checkRequiredNotSet_reports (core sampleSchema sampleTypes)
    (some { ty := 0, addr := some 0 }) [sampleNoId] sampleSchema sampleTypes
    { ty := 0, addr := some 0 } []).2.1
    { Error := "id" } [sampleNoId] rfl

/-- C9: when the reflective view of src is nil, or is not valid, `Clone(src)`
returns src itself and leaves the state as it is, under any runtime: nothing
is allocated and no merge, override or generic, is run. -/
theorem Clone_invalid_returns_src {σ Msg V2 PR : Type} (rt : Runtime σ Msg V2 PR) (src : Msg)
    (s : σ)
    (hinv : rt.MessageOf src = none ∨ ∃ pr, rt.MessageOf src = some pr ∧ rt.IsValid pr = false) :
    Clone rt src s = Outcome.ok (src, s) := by
  rcases hinv with hn | ⟨pr, hpr, hv⟩
  · simp only [Clone, hn]
    rfl
  · simp only [Clone, hpr, hv, Bool.not_false, if_true]
    rfl

/-- Witness of C9: a nil pointer of type 3, whose `Merge` method would panic
on it, is returned as it is and the memory is untouched. -/
theorem Clone_invalid_returns_src_witness :
    Clone (core sampleSchema sampleTypes) (some { ty := 3, addr := none }) [sampleMsg] =
      Outcome.ok (some { ty := 3, addr := none }, [sampleMsg]) :=
  Clone_invalid_returns_src (core sampleSchema sampleTypes) (some { ty := 3, addr := none })
    [sampleMsg] (Or.inr ⟨{ ty := 3, addr := none }, rfl, rfl⟩)

/-- C10: `Error()` of a `RequiredNotSetError` is the message of the wrapped
error when there is one and the fixed text when the wrapped error is nil, as
in the zero value; `RequiredNotSet()` is true in both cases. -/
theorem RequiredNotSetError_Error_message (e : RequiredNotSetError) :
    (∀ err, e.err = some err → e.Error = err.Error) ∧
    (e.err = none → e.Error = "proto: required field not set") ∧
    ({ err := none } : RequiredNotSetError).Error = "proto: required field not set" ∧
    e.RequiredNotSet = true := by
  refine ⟨?_, ?_, rfl, rfl⟩
  · intro err he
    simp only [RequiredNotSetError.Error, he]
  · intro he
    simp only [RequiredNotSetError.Error, he]

end Proto
